import Mathlib

/-!
Verification of the PyplotExercises notebook corpus.

The notebooks delegate numeric work to an external array library; cells are
short straight-line sequences of calls.  We embed the data each cell computes
as Lean functions over exact numbers (`ℚ` where the code is executable
arithmetic, `ℝ` where the code calls transcendental functions), and prove the
stated properties of those embeddings.
-/

/- ======================================================================
   Figure layout (part_000, the two stacked axes made with fig.add_axes)
   ====================================================================== -/

/-- A figure-coordinate rectangle as passed to fig.add_axes:
left, bottom, width, height, all fractions of the figure. -/
structure AxesRect where
  left : ℚ
  bottom : ℚ
  width : ℚ
  height : ℚ
deriving DecidableEq

/-- The upper panel: fig.add_axes([0.1, 0.5, 0.8, 0.4]). -/
def ax1Rect : AxesRect := ⟨0.1, 0.5, 0.8, 0.4⟩

/-- The lower panel: fig.add_axes([0.1, 0.1, 0.8, 0.4]). -/
def ax2Rect : AxesRect := ⟨0.1, 0.1, 0.8, 0.4⟩

/-- A rectangle lies inside the unit figure square [0,1] x [0,1]. -/
def AxesRect.inUnitSquare (r : AxesRect) : Prop :=
  0 ≤ r.left ∧ 0 ≤ r.bottom ∧ r.left + r.width ≤ 1 ∧ r.bottom + r.height ≤ 1

instance (r : AxesRect) : Decidable r.inUnitSquare := by
  unfold AxesRect.inUnitSquare; infer_instance

/- ======================================================================
   Scatter cell of 04.02: data drawn from a fresh RandomState(0)
   ====================================================================== -/

/-- Modelled from the spec: the external array library's seeded pseudorandom
generator (np.random.RandomState).  Its implementation is not part of this
repository; per the library's documented contract it is a deterministic
stream fully determined by the seed, which we model as a concrete linear
congruential generator over a 64-bit state. -/
def rsNext (s : ℕ) : ℕ :=
  (6364136223846793005 * s + 1442695040888963407) % 2 ^ 64

/-- Modelled from the spec: constructing np.random.RandomState(seed) puts the
generator in a state determined only by the seed. -/
def mkRandomState (seed : ℕ) : ℕ := seed % 2 ^ 64

/-- Modelled from the spec: one uniform draw in [0, 1) from the generator
state, returning the sample and the advanced state. -/
def rsRand (s : ℕ) : ℚ × ℕ :=
  let s1 := rsNext s
  (((s1 % 2 ^ 53 : ℕ) : ℚ) / 2 ^ 53, s1)

/-- Modelled from the spec: one standard-normal draw (rng.randn), a
deterministic function of the generator state like every draw. -/
def rsRandn (s : ℕ) : ℚ × ℕ :=
  let (u, s1) := rsRand s
  let (v, s2) := rsRand s1
  (u + v - 1, s2)

/-- A vector of n draws made by repeatedly calling one sampler. -/
def rsDraws (sampler : ℕ → ℚ × ℕ) : ℕ → ℕ → List ℚ × ℕ
  | 0, s => ([], s)
  | n + 1, s =>
    let (q, s1) := sampler s
    let (rest, s2) := rsDraws sampler n s1
    (q :: rest, s2)

/-- The data computed by the colored scatter cell of
04.02-Simple-Scatter-Plots (lines 183-191):
rng = np.random.RandomState(0); x = rng.randn(100); y = rng.randn(100);
colors = rng.rand(100); sizes = 1000 * rng.rand(100).
The argument is the state of the library's global generator at the moment the
cell runs; the cell constructs its own fresh generator instead of using it. -/
def scatterCellData (_globalState : ℕ) : List ℚ × List ℚ × List ℚ × List ℚ :=
  let rng := mkRandomState 0
  let (x, r1) := rsDraws rsRandn 100 rng
  let (y, r2) := rsDraws rsRandn 100 r1
  let (colors, r3) := rsDraws rsRand 100 r2
  let (sizes0, _) := rsDraws rsRand 100 r3
  (x, y, colors, sizes0.map (fun q => 1000 * q))

/- ======================================================================
   04.07-Customizing-Colorbars: the image I and the speckles cell
   ====================================================================== -/

/-- Boolean-mask assignment a[mask] = vals of the array library: positions
where the mask is true receive the successive replacement values, positions
where it is false keep their original entries. -/
def maskedAssign : List ℚ → List Bool → List ℚ → List ℚ
  | [], _, _ => []
  | x :: xs, false :: ms, vs => x :: maskedAssign xs ms vs
  | _ :: xs, true :: ms, v :: vs => v :: maskedAssign xs ms vs
  | x :: xs, true :: ms, [] => x :: maskedAssign xs ms []
  | x :: xs, [], vs => x :: maskedAssign xs [] vs

/-- The speckles cell of 04.07-Customizing-Colorbars (lines 289-290) acting on
one row of the image: speckles = (np.random.random(I.shape) < 0.01);
I[speckles] = np.random.normal(0, 3, np.count_nonzero(speckles)).
uniformDraws are the np.random.random samples, normalDraws the np.random.normal
replacement values; the result is the array I after the cell. -/
def specklesCellUpdate (I : List ℚ) (uniformDraws : List ℚ)
    (normalDraws : List ℚ) : List ℚ :=
  let speckles := uniformDraws.map (fun u => decide (u < 0.01))
  maskedAssign I speckles normalDraws

/- ======================================================================
   Helper lemmas for maskedAssign
   ====================================================================== -/

theorem maskedAssign_length (I : List ℚ) :
    ∀ ms vs, (maskedAssign I ms vs).length = I.length := by
  induction I with
  | nil => intro ms vs; rfl
  | cons x xs ih =>
    intro ms vs
    match ms, vs with
    | [], vs => simp [maskedAssign, ih]
    | false :: ms, vs => simp [maskedAssign, ih]
    | true :: ms, [] => simp [maskedAssign, ih]
    | true :: ms, v :: vs => simp [maskedAssign, ih]

theorem maskedAssign_getD_of_mask_false (I : List ℚ) :
    ∀ ms vs i, ms.getD i false = false →
      (maskedAssign I ms vs).getD i 0 = I.getD i 0 := by
  induction I with
  | nil => intro ms vs i _; rfl
  | cons x xs ih =>
    intro ms vs i h
    match ms, vs, i with
    | [], vs, 0 => simp [maskedAssign]
    | [], vs, i + 1 => simpa [maskedAssign] using ih [] vs i rfl
    | false :: ms, vs, 0 => simp [maskedAssign]
    | false :: ms, vs, i + 1 =>
      simpa [maskedAssign] using ih ms vs i (by simpa using h)
    | true :: ms, vs, 0 => simp at h
    | true :: ms, [], i + 1 =>
      simpa [maskedAssign] using ih ms [] i (by simpa using h)
    | true :: ms, v :: vs, i + 1 =>
      simpa [maskedAssign] using ih ms vs i (by simpa using h)

theorem speckles_mask_getD_false (uniformDraws : List ℚ) (i : ℕ)
    (h : ¬ uniformDraws.getD i 1 < 0.01) :
    (uniformDraws.map (fun u => decide (u < 0.01))).getD i false = false := by
  rw [List.getD_eq_getElem?_getD, List.getElem?_map]
  rw [List.getD_eq_getElem?_getD] at h
  cases hu : uniformDraws[i]? with
  | none => simp
  | some u =>
    rw [hu] at h
    simpa using h

/- ======================================================================
   Theorems
   ====================================================================== -/

/-- C7: the two fig.add_axes rectangles of the stacked-axes cell are exactly
adjacent (bottom of the upper panel = bottom + height of the lower panel,
0.1 + 0.4 = 0.5) and each lies inside the unit figure square. -/
theorem stacked_axes_adjacent_and_in_unit_square :
    ax2Rect.bottom + ax2Rect.height = ax1Rect.bottom ∧
    ax1Rect.inUnitSquare ∧ ax2Rect.inUnitSquare := by
  refine ⟨?_, ?_, ?_⟩ <;>
    norm_num [ax1Rect, ax2Rect, AxesRect.inUnitSquare]

/-- C10: the colored scatter cell builds its data from a freshly constructed
fixed-seed generator, so its output is the same function of nothing: any two
executions, whatever the global generator state each one sees, produce
identical x, y, colors and sizes arrays. -/
theorem scatter_cell_deterministic (g1 g2 : ℕ) :
    scatterCellData g1 = scatterCellData g2 := rfl

/-- C4 counterexample: it is not true that later cells leave earlier arrays
unchanged.  The speckles cell of 04.07-Customizing-Colorbars assigns into the
array I created by an earlier cell: on a one-entry array with uniform draw 0
(below the 0.01 threshold) and replacement value 5, the cell rewrites the
array. -/
theorem speckles_cell_changes_earlier_array :
    specklesCellUpdate [0] [0] [5] ≠ [0] := by
  have h : specklesCellUpdate [0] [0] [5] = [5] := by
    show maskedAssign [0] ([(0 : ℚ)].map (fun u => decide (u < 0.01))) [5] = [5]
    norm_num [maskedAssign]
  rw [h]
  norm_num

/-- C4 amended: every array bound by one cell is left unchanged by later
cells except the speckles cell of 04.07-Customizing-Colorbars, which assigns
into the earlier-created array I; even that cell preserves the array's length
and every position whose uniform draw is not below the 0.01 threshold. -/
theorem speckles_cell_frame (I uniformDraws normalDraws : List ℚ) (i : ℕ)
    (h : ¬ uniformDraws.getD i 1 < 0.01) :
    (specklesCellUpdate I uniformDraws normalDraws).length = I.length ∧
    (specklesCellUpdate I uniformDraws normalDraws).getD i 0 = I.getD i 0 := by
  unfold specklesCellUpdate
  exact ⟨maskedAssign_length I _ _,
    maskedAssign_getD_of_mask_false I _ _ i (speckles_mask_getD_false _ i h)⟩

/-- C4 amended, witness: at the concrete image row [9], uniform draw 1 and
replacement values [5], position 0 is untouched. -/
theorem speckles_cell_frame_witness :
    ¬ ([(1 : ℚ)].getD 0 1 < 0.01) ∧
      (specklesCellUpdate [9] [1] [5]).length = ([9] : List ℚ).length ∧
      (specklesCellUpdate [9] [1] [5]).getD 0 0 = ([9] : List ℚ).getD 0 0 :=
  ⟨by norm_num, speckles_cell_frame [9] [1] [5] 0 (by norm_num)⟩

/- ======================================================================
   np.histogram (04.05-Histograms-and-Binnings, counts, bin_edges =
   np.histogram(data, bins=5))
   ====================================================================== -/

/-- The minimum the array library reports for a data array (np.min); for the
empty array np.histogram falls back to the default range lower bound 0. -/
def listMin : List ℚ → ℚ
  | [] => 0
  | x :: xs => xs.foldl min x

/-- The maximum the array library reports for a data array (np.max); for the
empty array np.histogram falls back to the default range upper bound 1. -/
def listMax : List ℚ → ℚ
  | [] => 1
  | x :: xs => xs.foldl max x

/-- Bin edge j of np.histogram with K equal-width bins over [lo, hi]. -/
def histEdge (lo hi : ℚ) (K j : ℕ) : ℚ := lo + j * (hi - lo) / K

/-- The K+1 bin edges returned by np.histogram. -/
def histEdges (lo hi : ℚ) (K : ℕ) : List ℚ :=
  (List.range (K + 1)).map (histEdge lo hi K)

/-- Membership of a value in bin i of np.histogram: bins are half-open
[e_i, e_i+1) except the last, which is closed [e_K-1, e_K]. -/
def inBin (lo hi : ℚ) (K i : ℕ) (v : ℚ) : Bool :=
  if i + 1 = K then decide (histEdge lo hi K i ≤ v ∧ v ≤ histEdge lo hi K (i + 1))
  else decide (histEdge lo hi K i ≤ v ∧ v < histEdge lo hi K (i + 1))

/-- np.histogram(data, bins=K): K per-bin counts and K+1 equally spaced
edges spanning the data's range. -/
def npHistogram (data : List ℚ) (K : ℕ) : List ℕ × List ℚ :=
  let lo := listMin data
  let hi := listMax data
  ((List.range K).map (fun i => data.countP (inBin lo hi K i)),
   histEdges lo hi K)

/- fold-min / fold-max bounds -/

theorem foldl_min_le_init : ∀ (l : List ℚ) (a : ℚ), l.foldl min a ≤ a
  | [], a => le_refl a
  | y :: ys, a => le_trans (foldl_min_le_init ys (min a y)) (min_le_left a y)

theorem foldl_min_le_mem : ∀ (l : List ℚ) (a x : ℚ), x ∈ l → l.foldl min a ≤ x := by
  intro l
  induction l with
  | nil => intro a x hx; cases hx
  | cons y ys ih =>
    intro a x hx
    rcases List.mem_cons.1 hx with h | h
    · subst h
      exact le_trans (foldl_min_le_init ys (min a x)) (min_le_right a x)
    · exact ih (min a y) x h

theorem init_le_foldl_max : ∀ (l : List ℚ) (a : ℚ), a ≤ l.foldl max a
  | [], a => le_refl a
  | y :: ys, a => le_trans (le_max_left a y) (init_le_foldl_max ys (max a y))

theorem mem_le_foldl_max : ∀ (l : List ℚ) (a x : ℚ), x ∈ l → x ≤ l.foldl max a := by
  intro l
  induction l with
  | nil => intro a x hx; cases hx
  | cons y ys ih =>
    intro a x hx
    rcases List.mem_cons.1 hx with h | h
    · subst h
      exact le_trans (le_max_right a x) (init_le_foldl_max ys (max a x))
    · exact ih (max a y) x h

theorem listMin_le_mem (l : List ℚ) (x : ℚ) (hx : x ∈ l) : listMin l ≤ x := by
  cases l with
  | nil => cases hx
  | cons a as =>
    rcases List.mem_cons.1 hx with h | h
    · subst h; exact foldl_min_le_init as x
    · exact foldl_min_le_mem as a x h

theorem mem_le_listMax (l : List ℚ) (x : ℚ) (hx : x ∈ l) : x ≤ listMax l := by
  cases l with
  | nil => cases hx
  | cons a as =>
    rcases List.mem_cons.1 hx with h | h
    · subst h; exact init_le_foldl_max as x
    · exact mem_le_foldl_max as a x h

/- bin-edge arithmetic -/

theorem histEdge_zero (lo hi : ℚ) (K : ℕ) : histEdge lo hi K 0 = lo := by
  simp [histEdge]

theorem histEdge_last (lo hi : ℚ) (K : ℕ) (hK : 1 ≤ K) :
    histEdge lo hi K K = hi := by
  have hK0 : (K : ℚ) ≠ 0 := by
    have : K ≠ 0 := Nat.one_le_iff_ne_zero.1 hK
    exact_mod_cast this
  field_simp [histEdge]

theorem histEdge_mono (lo hi : ℚ) (K : ℕ) (hlohi : lo ≤ hi) {j j' : ℕ}
    (hjj : j ≤ j') : histEdge lo hi K j ≤ histEdge lo hi K j' := by
  unfold histEdge
  have hnum : (j : ℚ) * (hi - lo) ≤ (j' : ℚ) * (hi - lo) :=
    mul_le_mul_of_nonneg_right (by exact_mod_cast hjj) (by linarith)
  have hK0 : (0 : ℚ) ≤ (K : ℚ) := by positivity
  rcases eq_or_lt_of_le hK0 with h0 | h0
  · rw [← h0]
    simp
  · exact add_le_add_left ((div_le_div_iff_of_pos_right h0).2 hnum) lo

/- each in-range point lies in exactly one bin -/

theorem bin_card_one (lo hi : ℚ) (K : ℕ) (hK : 1 ≤ K) (hlohi : lo ≤ hi)
    (x : ℚ) (h1 : lo ≤ x) (h2 : x ≤ hi) :
    ((Finset.range K).filter (fun i => inBin lo hi K i x = true)).card = 1 := by
  have hP0 : histEdge lo hi K 0 ≤ x := by rw [histEdge_zero]; exact h1
  set P : ℕ → Prop := fun j => histEdge lo hi K j ≤ x with hPdef
  have hP0' : P 0 := hP0
  set j0 := Nat.findGreatest P (K - 1) with hj0def
  have hPj0 : P j0 := Nat.findGreatest_spec (Nat.zero_le _) hP0'
  have hj0le : j0 ≤ K - 1 := Nat.findGreatest_le _
  have hj0K : j0 < K := by omega
  have hbin : inBin lo hi K j0 x = true := by
    unfold inBin
    by_cases hc : j0 + 1 = K
    · rw [if_pos hc]
      refine decide_eq_true ⟨hPj0, ?_⟩
      rw [hc, histEdge_last lo hi K hK]
      exact h2
    · rw [if_neg hc]
      refine decide_eq_true ⟨hPj0, ?_⟩
      have hj1 : j0 + 1 ≤ K - 1 := by omega
      have hnot : ¬ P (j0 + 1) :=
        Nat.findGreatest_is_greatest (Nat.lt_succ_self j0) hj1
      exact not_le.1 hnot
  have huniq : ∀ i, i < K → inBin lo hi K i x = true → i = j0 := by
    intro i hiK hib
    have hPi : P i := by
      unfold inBin at hib
      by_cases hc : i + 1 = K
      · rw [if_pos hc] at hib
        exact (of_decide_eq_true hib).1
      · rw [if_neg hc] at hib
        exact (of_decide_eq_true hib).1
    have hile : i ≤ K - 1 := by omega
    have hij0 : i ≤ j0 := Nat.le_findGreatest hile hPi
    rcases eq_or_lt_of_le hij0 with h | h
    · exact h
    · exfalso
      have hiK1 : i + 1 ≠ K := by omega
      unfold inBin at hib
      rw [if_neg hiK1] at hib
      have hlt : x < histEdge lo hi K (i + 1) := (of_decide_eq_true hib).2
      have hmono : histEdge lo hi K (i + 1) ≤ histEdge lo hi K j0 :=
        histEdge_mono lo hi K hlohi (by omega)
      exact absurd hPj0 (not_le.2 (lt_of_lt_of_le hlt hmono))
  have hfilter :
      (Finset.range K).filter (fun i => inBin lo hi K i x = true) = {j0} := by
    ext i
    simp only [Finset.mem_filter, Finset.mem_range, Finset.mem_singleton]
    constructor
    · rintro ⟨ha, hb⟩
      exact huniq i ha hb
    · rintro rfl
      exact ⟨hj0K, hbin⟩
  rw [hfilter]
  exact Finset.card_singleton j0

/- summing the per-bin counts -/

theorem list_map_range_sum (g : ℕ → ℕ) :
    ∀ K, ((List.range K).map g).sum = ∑ i ∈ Finset.range K, g i := by
  intro K
  induction K with
  | zero => simp
  | succ n ih => simp [List.range_succ, Finset.sum_range_succ, ih]

theorem countP_partition (K : ℕ) (p : ℕ → ℚ → Bool) :
    ∀ data : List ℚ,
      (∀ x ∈ data, ((Finset.range K).filter (fun i => p i x = true)).card = 1) →
      ((List.range K).map (fun i => data.countP (p i))).sum = data.length := by
  intro data
  induction data with
  | nil => intro _; simp
  | cons a l ih =>
    intro h
    rw [list_map_range_sum]
    calc ∑ i ∈ Finset.range K, List.countP (p i) (a :: l)
        = ∑ i ∈ Finset.range K,
            (List.countP (p i) l + if p i a = true then 1 else 0) :=
          Finset.sum_congr rfl (fun i _ => List.countP_cons _ a _)
      _ = (∑ i ∈ Finset.range K, List.countP (p i) l) +
            ∑ i ∈ Finset.range K, (if p i a = true then 1 else 0) :=
          Finset.sum_add_distrib
      _ = l.length + 1 := by
          rw [← list_map_range_sum, ih (fun x hx => h x (List.mem_cons_of_mem a hx)),
            Finset.sum_boole, h a (List.mem_cons_self a l)]
          norm_num
      _ = (a :: l).length := by simp

/-- C1: np.histogram(data, bins=K) with K >= 1 returns exactly K counts and
K+1 bin edges, and the counts sum to the number of data points: every data
point is counted in exactly one bin. -/
theorem histogram_shape_and_total (data : List ℚ) (K : ℕ) (hK : 1 ≤ K) :
    (npHistogram data K).1.length = K ∧
    (npHistogram data K).2.length = K + 1 ∧
    (npHistogram data K).1.sum = data.length := by
  refine ⟨by simp [npHistogram], by simp [npHistogram, histEdges], ?_⟩
  show ((List.range K).map
      (fun i => data.countP (inBin (listMin data) (listMax data) K i))).sum
      = data.length
  apply countP_partition
  intro x hx
  exact bin_card_one _ _ _ hK
    (le_trans (listMin_le_mem data x hx) (mem_le_listMax data x hx))
    x (listMin_le_mem data x hx) (mem_le_listMax data x hx)

/-- C1, witness: the call of the notebook with data [1, 2, 3] and 5 bins. -/
theorem histogram_shape_and_total_witness :
    1 ≤ 5 ∧
      (npHistogram [1, 2, 3] 5).1.length = 5 ∧
      (npHistogram [1, 2, 3] 5).2.length = 5 + 1 ∧
      (npHistogram [1, 2, 3] 5).1.sum = ([1, 2, 3] : List ℚ).length :=
  ⟨by norm_num, histogram_shape_and_total [1, 2, 3] 5 (by norm_num)⟩

/- ======================================================================
   np.percentile (part_000, births cell: np.percentile(births, [25,50,75]))
   ====================================================================== -/

/-- Linear-interpolation percentile of an already sorted array, numpy's
default method: the virtual index is (n-1)*p/100; the result interpolates
between the two neighbouring entries, clipping at the last entry. -/
def pctlSorted (s : List ℚ) (p : ℚ) : ℚ :=
  let n := s.length
  let t := ((n : ℚ) - 1) * p / 100
  let k := Int.toNat ⌊t⌋
  if k + 1 < n then
    s.getD k 0 + (t - (k : ℚ)) * (s.getD (k + 1) 0 - s.getD k 0)
  else s.getD (n - 1) 0

/-- np.percentile(values, p): sort, then interpolate at (n-1)*p/100. -/
def npPercentile (values : List ℚ) (p : ℚ) : ℚ :=
  pctlSorted (values.mergeSort (fun a b => decide (a ≤ b))) p

theorem sortedGetD_mono {s : List ℚ} (hs : List.Pairwise (· ≤ ·) s)
    {i j : ℕ} (hij : i ≤ j) (hj : j < s.length) :
    s.getD i 0 ≤ s.getD j 0 := by
  rcases eq_or_lt_of_le hij with rfl | hlt
  · exact le_refl _
  · have hi : i < s.length := lt_trans hlt hj
    rw [List.getD_eq_getElem s 0 hi, List.getD_eq_getElem s 0 hj]
    exact List.pairwise_iff_get.1 hs ⟨i, hi⟩ ⟨j, hj⟩ hlt

theorem virtual_index_nonneg (n : ℕ) (hn : 1 ≤ n) (p : ℚ) (hp0 : 0 ≤ p) :
    0 ≤ ((n : ℚ) - 1) * p / 100 := by
  have h1 : (1 : ℚ) ≤ (n : ℚ) := by exact_mod_cast hn
  have : (0 : ℚ) ≤ (n : ℚ) - 1 := by linarith
  positivity

theorem virtual_index_le (n : ℕ) (hn : 1 ≤ n) (p : ℚ)
    (hp100 : p ≤ 100) : ((n : ℚ) - 1) * p / 100 ≤ (n : ℚ) - 1 := by
  have h1 : (1 : ℚ) ≤ (n : ℚ) := by exact_mod_cast hn
  rw [div_le_iff₀ (by norm_num : (0 : ℚ) < 100)]
  have := mul_le_mul_of_nonneg_left hp100 (by linarith : (0 : ℚ) ≤ (n : ℚ) - 1)
  linarith

theorem floor_toNat_cast (t : ℚ) (ht : 0 ≤ t) :
    ((Int.toNat ⌊t⌋ : ℕ) : ℚ) = ((⌊t⌋ : ℤ) : ℚ) := by
  have hz : (0 : ℤ) ≤ ⌊t⌋ := Int.floor_nonneg.2 ht
  exact_mod_cast congrArg (fun z : ℤ => (z : ℚ)) (Int.toNat_of_nonneg hz)

theorem pctlSorted_bounds (s : List ℚ) (hs : List.Pairwise (· ≤ ·) s)
    (hne : s ≠ []) (p : ℚ) (hp0 : 0 ≤ p) (hp100 : p ≤ 100) :
    s.getD 0 0 ≤ pctlSorted s p ∧ pctlSorted s p ≤ s.getD (s.length - 1) 0 := by
  have hn1 : 1 ≤ s.length := List.length_pos.2 hne
  simp only [pctlSorted]
  set n := s.length with hn
  set t := ((n : ℚ) - 1) * p / 100 with ht
  set k := Int.toNat ⌊t⌋ with hk
  have ht0 : 0 ≤ t := virtual_index_nonneg n hn1 p hp0
  have htle : t ≤ (n : ℚ) - 1 := virtual_index_le n hn1 p hp100
  have hkq : (k : ℚ) = ((⌊t⌋ : ℤ) : ℚ) := floor_toNat_cast t ht0
  have hkt : (k : ℚ) ≤ t := by rw [hkq]; exact Int.floor_le t
  have htk1 : t < (k : ℚ) + 1 := by rw [hkq]; exact_mod_cast Int.lt_floor_add_one t
  have hkn : k ≤ n - 1 := by
    have hq : (k : ℚ) ≤ (n : ℚ) - 1 := le_trans hkt htle
    have hcast : ((n - 1 : ℕ) : ℚ) = (n : ℚ) - 1 := by
      rw [Nat.cast_sub hn1]; norm_num
    rw [← hcast] at hq
    exact_mod_cast hq
  by_cases hbr : k + 1 < n
  · rw [if_pos hbr]
    have hg0 : 0 ≤ t - (k : ℚ) := by linarith
    have hg1 : t - (k : ℚ) ≤ 1 := by linarith
    have hD : s.getD k 0 ≤ s.getD (k + 1) 0 := sortedGetD_mono hs (Nat.le_succ k) hbr
    constructor
    · have h0k : s.getD 0 0 ≤ s.getD k 0 := sortedGetD_mono hs (Nat.zero_le k) (by omega)
      have := mul_nonneg hg0 (sub_nonneg.2 hD)
      linarith
    · have hk1n : s.getD (k + 1) 0 ≤ s.getD (n - 1) 0 :=
        sortedGetD_mono hs (by omega) (by omega)
      have := mul_nonneg (by linarith : (0 : ℚ) ≤ 1 - (t - (k : ℚ)))
        (sub_nonneg.2 hD)
      nlinarith
  · rw [if_neg hbr]
    exact ⟨sortedGetD_mono hs (Nat.zero_le _) (by omega), le_refl _⟩

theorem pctlSorted_mono (s : List ℚ) (hs : List.Pairwise (· ≤ ·) s)
    (hne : s ≠ []) (p q : ℚ) (hp0 : 0 ≤ p) (hpq : p ≤ q) (hq100 : q ≤ 100) :
    pctlSorted s p ≤ pctlSorted s q := by
  have hn1 : 1 ≤ s.length := List.length_pos.2 hne
  simp only [pctlSorted]
  set n := s.length with hn
  set t := ((n : ℚ) - 1) * p / 100 with ht
  set u := ((n : ℚ) - 1) * q / 100 with hu
  set kt := Int.toNat ⌊t⌋ with hktd
  set ku := Int.toNat ⌊u⌋ with hkud
  have hq0 : 0 ≤ q := le_trans hp0 hpq
  have ht0 : 0 ≤ t := virtual_index_nonneg n hn1 p hp0
  have hu0 : 0 ≤ u := virtual_index_nonneg n hn1 q hq0
  have hule : u ≤ (n : ℚ) - 1 := virtual_index_le n hn1 q hq100
  have htu : t ≤ u := by
    have h1 : (1 : ℚ) ≤ (n : ℚ) := by exact_mod_cast hn1
    have h2 := mul_le_mul_of_nonneg_left hpq (by linarith : (0 : ℚ) ≤ (n : ℚ) - 1)
    rw [ht, hu]
    linarith
  have hktq : (kt : ℚ) = ((⌊t⌋ : ℤ) : ℚ) := floor_toNat_cast t ht0
  have hkuq : (ku : ℚ) = ((⌊u⌋ : ℤ) : ℚ) := floor_toNat_cast u hu0
  have hktt : (kt : ℚ) ≤ t := by rw [hktq]; exact Int.floor_le t
  have htkt1 : t < (kt : ℚ) + 1 := by
    rw [hktq]; exact_mod_cast Int.lt_floor_add_one t
  have hkuu : (ku : ℚ) ≤ u := by rw [hkuq]; exact Int.floor_le u
  have hkukn : ku ≤ n - 1 := by
    have hq2 : (ku : ℚ) ≤ (n : ℚ) - 1 := le_trans hkuu hule
    have hcast : ((n - 1 : ℕ) : ℚ) = (n : ℚ) - 1 := by
      rw [Nat.cast_sub hn1]; norm_num
    rw [← hcast] at hq2
    exact_mod_cast hq2
  have hktku : kt ≤ ku := Int.toNat_le_toNat (Int.floor_le_floor htu)
  have hktn : kt ≤ n - 1 := le_trans hktku hkukn
  by_cases hbt : kt + 1 < n
  · by_cases hbu : ku + 1 < n
    · rw [if_pos hbt, if_pos hbu]
      have hD : s.getD kt 0 ≤ s.getD (kt + 1) 0 :=
        sortedGetD_mono hs (Nat.le_succ kt) hbt
      have hDu : s.getD ku 0 ≤ s.getD (ku + 1) 0 :=
        sortedGetD_mono hs (Nat.le_succ ku) hbu
      rcases eq_or_lt_of_le hktku with heq | hlt
      · rw [← heq]
        have := mul_le_mul_of_nonneg_right
          (by linarith : t - (kt : ℚ) ≤ u - (kt : ℚ)) (sub_nonneg.2 hD)
        linarith
      · have hmid : s.getD (kt + 1) 0 ≤ s.getD ku 0 :=
          sortedGetD_mono hs hlt (by omega)
        have h1 : s.getD kt 0 + (t - (kt : ℚ)) * (s.getD (kt + 1) 0 - s.getD kt 0)
            ≤ s.getD (kt + 1) 0 := by
          have := mul_nonneg (by linarith : (0 : ℚ) ≤ 1 - (t - (kt : ℚ)))
            (sub_nonneg.2 hD)
          nlinarith
        have h2 : s.getD ku 0
            ≤ s.getD ku 0 + (u - (ku : ℚ)) * (s.getD (ku + 1) 0 - s.getD ku 0) := by
          have := mul_nonneg (by linarith : (0 : ℚ) ≤ u - (ku : ℚ))
            (sub_nonneg.2 hDu)
          linarith
        linarith
    · rw [if_pos hbt, if_neg hbu]
      have hD : s.getD kt 0 ≤ s.getD (kt + 1) 0 :=
        sortedGetD_mono hs (Nat.le_succ kt) hbt
      have h1 : s.getD kt 0 + (t - (kt : ℚ)) * (s.getD (kt + 1) 0 - s.getD kt 0)
          ≤ s.getD (kt + 1) 0 := by
        have := mul_nonneg (by linarith : (0 : ℚ) ≤ 1 - (t - (kt : ℚ)))
          (sub_nonneg.2 hD)
        nlinarith
      have h2 : s.getD (kt + 1) 0 ≤ s.getD (n - 1) 0 :=
        sortedGetD_mono hs (by omega) (by omega)
      linarith
  · have hbu : ¬ (ku + 1 < n) := by omega
    rw [if_neg hbt, if_neg hbu]

/- sortedness and permutation facts about the sort np.percentile performs -/

theorem mergeSort_le_sorted (values : List ℚ) :
    List.Pairwise (· ≤ ·) (values.mergeSort (fun a b => decide (a ≤ b))) := by
  have h := @List.sorted_mergeSort ℚ (fun a b => decide (a ≤ b))
    (fun a b c hab hbc => by
      simp only [decide_eq_true_eq] at *
      exact le_trans hab hbc)
    (fun a b => by simp [le_total])
    values
  exact h.imp (fun hab => of_decide_eq_true hab)

theorem mergeSort_length_eq (values : List ℚ) :
    (values.mergeSort (fun a b => decide (a ≤ b))).length = values.length :=
  List.length_mergeSort values

theorem mergeSort_ne_nil (values : List ℚ) (h : values ≠ []) :
    values.mergeSort (fun a b => decide (a ≤ b)) ≠ [] := by
  intro hnil
  apply h
  have hlen := mergeSort_length_eq values
  rw [hnil] at hlen
  exact List.eq_nil_of_length_eq_zero hlen.symm

theorem mergeSort_getD_mem (values : List ℚ) (i : ℕ)
    (hi : i < (values.mergeSort (fun a b => decide (a ≤ b))).length) :
    (values.mergeSort (fun a b => decide (a ≤ b))).getD i 0 ∈ values := by
  rw [List.getD_eq_getElem _ 0 hi]
  exact (List.mergeSort_perm values _).mem_iff.1 (List.getElem_mem hi)

/-- C6: np.percentile(values, [25, 50, 75]) on a non-empty array returns
quartiles with min(values) <= q25 <= q50 <= q75 <= max(values), so the spread
sig = 0.74 * (q75 - q25) of the births cell is non-negative. -/
theorem percentile_quartiles_ordered (values : List ℚ) (h : values ≠ []) :
    listMin values ≤ npPercentile values 25 ∧
    npPercentile values 25 ≤ npPercentile values 50 ∧
    npPercentile values 50 ≤ npPercentile values 75 ∧
    npPercentile values 75 ≤ listMax values ∧
    0 ≤ 0.74 * (npPercentile values 75 - npPercentile values 25) := by
  unfold npPercentile
  set s := values.mergeSort (fun a b => decide (a ≤ b)) with hsdef
  have hsorted : List.Pairwise (· ≤ ·) s := mergeSort_le_sorted values
  have hne : s ≠ [] := mergeSort_ne_nil values h
  have hn1 : 1 ≤ s.length := List.length_pos.2 hne
  have hb25 := pctlSorted_bounds s hsorted hne 25 (by norm_num) (by norm_num)
  have hb75 := pctlSorted_bounds s hsorted hne 75 (by norm_num) (by norm_num)
  have hm1 := pctlSorted_mono s hsorted hne 25 50 (by norm_num) (by norm_num)
    (by norm_num)
  have hm2 := pctlSorted_mono s hsorted hne 50 75 (by norm_num) (by norm_num)
    (by norm_num)
  have hmem0 : s.getD 0 0 ∈ values :=
    mergeSort_getD_mem values 0 (by rw [← hsdef]; omega)
  have hmeml : s.getD (s.length - 1) 0 ∈ values :=
    mergeSort_getD_mem values (s.length - 1) (by rw [← hsdef]; omega)
  refine ⟨le_trans (listMin_le_mem values _ hmem0) hb25.1, hm1, hm2,
    le_trans hb75.2 (mem_le_listMax values _ hmeml), ?_⟩
  have h2575 : pctlSorted s 25 ≤ pctlSorted s 75 := le_trans hm1 hm2
  have : (0 : ℚ) ≤ 0.74 := by norm_num
  exact mul_nonneg this (by linarith)

/-- C6, witness: the quartile chain at the concrete array [3, 1, 2]. -/
theorem percentile_quartiles_ordered_witness :
    ([3, 1, 2] : List ℚ) ≠ [] ∧
      (listMin [3, 1, 2] ≤ npPercentile [3, 1, 2] 25 ∧
       npPercentile [3, 1, 2] 25 ≤ npPercentile [3, 1, 2] 50 ∧
       npPercentile [3, 1, 2] 50 ≤ npPercentile [3, 1, 2] 75 ∧
       npPercentile [3, 1, 2] 75 ≤ listMax [3, 1, 2] ∧
       0 ≤ 0.74 * (npPercentile [3, 1, 2] 75 - npPercentile [3, 1, 2] 25)) :=
  ⟨by simp, percentile_quartiles_ordered [3, 1, 2] (by simp)⟩

/- ======================================================================
   The births cleaning cell (part_000, lines 392-396)
   ====================================================================== -/

/-- A raw row of data/births.csv as the table library hands it to the cell. -/
structure BirthsRow where
  year : ℚ
  month : ℚ
  day : ℚ
  births : ℚ
deriving DecidableEq

/-- The outlier filter of the births cell:
quartiles = np.percentile(births[births], [25, 50, 75]);
mu, sig = quartiles[1], 0.74 * (quartiles[2] - quartiles[0]);
births = births.query((births > @mu - 5 * @sig) & (births < @mu + 5 * @sig)). -/
def birthsQuery (t : List BirthsRow) : List BirthsRow :=
  let quartiles := fun p => npPercentile (t.map BirthsRow.births) p
  let mu := quartiles 50
  let sig := 0.74 * (quartiles 75 - quartiles 25)
  t.filter (fun r =>
    decide (mu - 5 * sig < r.births) && decide (r.births < mu + 5 * sig))

/-- C9: on a non-empty table, the query keeps only rows whose births value
lies strictly inside (mu - 5*sig, mu + 5*sig), with mu and sig computed from
the table before filtering; it only removes rows (the result is a sublist of
the input, each kept row unmodified). -/
theorem births_query_band (t : List BirthsRow) (_h : t ≠ []) :
    (birthsQuery t).Sublist t ∧
    ∀ r ∈ birthsQuery t,
      npPercentile (t.map BirthsRow.births) 50 -
          5 * (0.74 * (npPercentile (t.map BirthsRow.births) 75 -
            npPercentile (t.map BirthsRow.births) 25)) < r.births ∧
      r.births < npPercentile (t.map BirthsRow.births) 50 +
          5 * (0.74 * (npPercentile (t.map BirthsRow.births) 75 -
            npPercentile (t.map BirthsRow.births) 25)) := by
  refine ⟨List.filter_sublist t, ?_⟩
  intro r hr
  have hmem := (List.mem_filter.1 hr).2
  simp only [Bool.and_eq_true, decide_eq_true_eq] at hmem
  exact hmem

/-- C9, witness: the filter semantics at a concrete one-row table. -/
theorem births_query_band_witness :
    ([(⟨2012, 1, 1, 100⟩ : BirthsRow)] ≠ []) ∧
      (birthsQuery [⟨2012, 1, 1, 100⟩]).Sublist [⟨2012, 1, 1, 100⟩] :=
  ⟨by simp, (births_query_band [⟨2012, 1, 1, 100⟩] (by simp)).1⟩

/- ======================================================================
   Cell execution model: the two pd.read_csv cells
   (part_000 lines 392-396 and 04.06-Customizing-Legends lines 218-226)
   ====================================================================== -/

/-- A raw row of data/california_cities.csv as used by the legends cell. -/
structure CityRow where
  latd : ℚ
  longd : ℚ
  population_total : ℚ
  area_total_km2 : ℚ
deriving DecidableEq

/-- A value a notebook cell can bind to a name. -/
inductive PyValue where
  | table (rows : List BirthsRow)
  | cityTable (rows : List CityRow)
  | column (vals : List ℚ)
  | num (q : ℚ)
  | pivotSeries (entries : List ((ℚ × ℚ) × ℚ))
  | datedSeries (entries : List ((ℚ × ℚ × ℚ) × ℚ))
deriving DecidableEq

/-- The notebook's variable bindings: most recent binding first. -/
def Env : Type := List (String × PyValue)

/-- Binding a name, as a Python assignment does. -/
def envSet (env : Env) (k : String) (v : PyValue) : Env := (k, v) :: env

/-- Result of running one cell: either a new environment, or the error the
external library raised together with the untouched environment at that
moment. -/
inductive CellOutcome where
  | ok (env : Env)
  | err (msg : String) (env : Env)

/-- astype(int): truncation toward zero, exact on these rationals. -/
def truncQ (q : ℚ) : ℚ :=
  if q < 0 then ((⌈q⌉ : ℤ) : ℚ) else ((⌊q⌋ : ℤ) : ℚ)

/-- Lexicographic order on the (month, day) pivot index. -/
def pairLe (a b : ℚ × ℚ) : Bool :=
  decide (a.1 < b.1 ∨ (a.1 = b.1 ∧ a.2 ≤ b.2))

/-- The sorted distinct (month, day) keys of the pivot index.  The cell builds
the index with to_datetime(10000*year + 100*month + day); its .month and .day
accessors recover the month and day columns. -/
def pivotKeys (t : List BirthsRow) : List (ℚ × ℚ) :=
  ((t.map (fun r => (r.month, r.day))).dedup).mergeSort pairLe

/-- Mean births over a (month, day) group, pivot_table's default aggregate. -/
def groupMeanBirths (t : List BirthsRow) (k : ℚ × ℚ) : ℚ :=
  let g := t.filter (fun r => decide ((r.month, r.day) = k))
  (g.map BirthsRow.births).sum / (g.length : ℚ)

/-- births.pivot_table('births', [index.month, index.day]). -/
def birthsPivot (t : List BirthsRow) : List ((ℚ × ℚ) × ℚ) :=
  (pivotKeys t).map (fun k => (k, groupMeanBirths t k))

/-- The births cell of part_000 (lines 392-396 and the statements that follow
in the same cell): births = pd.read_csv('data/births.csv'); the quartile
computation and query; births['day'] = births['day'].astype(int); the
to_datetime index; the pivot table; and the index rewrite to
pd.datetime(2012, month, day).  The read outcome of the external table
library is the first argument; if it is an error the cell stops there. -/
def birthsCell (readResult : Except String (List BirthsRow)) (env : Env) :
    CellOutcome :=
  match readResult with
  | .error e => .err e env
  | .ok t0 =>
    let env1 := envSet env "births" (.table t0)
    let t1 := birthsQuery t0
    let env2 := envSet env1 "births" (.table t1)
    let t2 := t1.map (fun r => { r with day := truncQ r.day })
    let env3 := envSet env2 "births" (.table t2)
    let pv := birthsPivot t2
    let env4 := envSet env3 "births_by_date" (.pivotSeries pv)
    let dated := pv.map (fun kv => ((2012, kv.1.1, kv.1.2), kv.2))
    let env5 := envSet env4 "births_by_date" (.datedSeries dated)
    .ok env5

/-- The California-cities cell of 04.06-Customizing-Legends (lines 218-226
and the rest of the cell): cities = pd.read_csv('data/california_cities.csv');
the four column extractions; the plt.scatter/axis/label/colorbar/clim calls
(which draw on the external figure and bind nothing); and the trailing
for area in [100, 300, 500] loop, which leaves area bound to 500. -/
def citiesCell (readResult : Except String (List CityRow)) (env : Env) :
    CellOutcome :=
  match readResult with
  | .error e => .err e env
  | .ok cities =>
    let env1 := envSet env "cities" (.cityTable cities)
    let env2 := envSet env1 "lat" (.column (cities.map CityRow.latd))
    let env3 := envSet env2 "lon" (.column (cities.map CityRow.longd))
    let env4 := envSet env3 "population"
      (.column (cities.map CityRow.population_total))
    let env5 := envSet env4 "area"
      (.column (cities.map CityRow.area_total_km2))
    let env6 := envSet env5 "area" (.num 500)
    .ok env6

/-- C3: when the external read fails, each read_csv cell's result is exactly
the library's error, untransformed and uncaught, and the bindings made by
earlier cells are exactly the environment the cell started with. -/
theorem read_csv_failure_propagates (e : String) (env : Env) :
    birthsCell (Except.error e) env = CellOutcome.err e env ∧
    citiesCell (Except.error e) env = CellOutcome.err e env :=
  ⟨rfl, rfl⟩

/- ======================================================================
   The function f and meshgrid of 04.04-Density-and-Contour-Plots
   ====================================================================== -/

/-- def f(x, y): return np.sin(x) ** 10 + np.cos(10 + y * x) * np.cos(x),
as defined by 04.04-Density-and-Contour-Plots (lines 56-57). -/
noncomputable def f (x y : ℝ) : ℝ :=
  Real.sin x ^ 10 + Real.cos (10 + y * x) * Real.cos x

/-- Modelled from the spec: the same computation written as the spec reads
it, a composition of the external library's documented sin/cos calls with
literal parameters only. -/
noncomputable def f_specModel (x y : ℝ) : ℝ :=
  Real.sin x ^ 10 + Real.cos (10 + y * x) * Real.cos x

/-- np.meshgrid(x, y): X repeats the row x once per entry of y, Y repeats
each entry of y across a row as long as x. -/
def meshgrid {α β : Type} (x : List α) (y : List β) :
    List (List α) × List (List β) :=
  (y.map (fun _ => x), y.map (fun b => x.map (fun _ => b)))

/-- Elementwise broadcast application Z = g(X, Y) over two equal-shape
grids, as the array library evaluates f(X, Y). -/
def broadcast2 (g : ℝ → ℝ → ℝ) (X Y : List (List ℝ)) : List (List ℝ) :=
  (X.zip Y).map (fun rows => (rows.1.zip rows.2).map (fun q => g q.1 q.2))

theorem getD_map_fn {α β : Type} (y : List α) (h : α → β) (d : β) (dA : α)
    (i : ℕ) (hi : i < y.length) : (y.map h).getD i d = h (y.getD i dA) := by
  rw [List.getD_eq_getElem _ _ (by simpa using hi),
    List.getD_eq_getElem _ _ hi, List.getElem_map]

theorem zip_const_map {α β : Type} (x : List α) (b : β) :
    x.zip (x.map (fun _ => b)) = x.map (fun a => (a, b)) := by
  induction x with
  | nil => rfl
  | cons a t ih => simp only [List.map_cons, List.zip_cons_cons, ih]

theorem broadcast2_meshgrid (g : ℝ → ℝ → ℝ) (x : List ℝ) (y : List ℝ) :
    broadcast2 g (meshgrid x y).1 (meshgrid x y).2
      = y.map (fun b => x.map (fun a => g a b)) := by
  unfold broadcast2 meshgrid
  rw [List.zip_map', List.map_map]
  have hrow : ∀ b : ℝ,
      (x.zip (x.map (fun _ => b))).map (fun q => g q.1 q.2)
        = x.map (fun a => g a b) := by
    intro b
    rw [zip_const_map, List.map_map]
    rfl
  exact List.map_congr_left (fun b _ => hrow b)

/-- C5: for x of length 50 and y of length 40, np.meshgrid(x, y) yields
grids of shape (40, 50) with X[i][j] = x[j] and Y[i][j] = y[i], and the
broadcast Z = f(X, Y) satisfies
Z[i][j] = sin(x[j])^10 + cos(10 + y[i]*x[j]) * cos(x[j]). -/
theorem meshgrid_and_broadcast_f (x y : List ℝ) (hx : x.length = 50)
    (hy : y.length = 40) (i j : ℕ) (hi : i < 40) (hj : j < 50) :
    (meshgrid x y).1.length = 40 ∧
    (meshgrid x y).2.length = 40 ∧
    ((meshgrid x y).1.getD i []).length = 50 ∧
    ((meshgrid x y).2.getD i []).length = 50 ∧
    ((meshgrid x y).1.getD i []).getD j 0 = x.getD j 0 ∧
    ((meshgrid x y).2.getD i []).getD j 0 = y.getD i 0 ∧
    ((broadcast2 f (meshgrid x y).1 (meshgrid x y).2).getD i []).getD j 0
      = Real.sin (x.getD j 0) ^ 10 +
        Real.cos (10 + y.getD i 0 * x.getD j 0) * Real.cos (x.getD j 0) := by
  have hiy : i < y.length := by omega
  have hjx : j < x.length := by omega
  have hX : (meshgrid x y).1 = y.map (fun _ => x) := rfl
  have hY : (meshgrid x y).2 = y.map (fun b => x.map (fun _ => b)) := rfl
  refine ⟨by simp [meshgrid, hy], by simp [meshgrid, hy], ?_, ?_, ?_, ?_, ?_⟩
  · rw [hX, getD_map_fn y (fun _ => x) [] 0 i hiy]
    exact hx
  · rw [hY, getD_map_fn y (fun b => x.map (fun _ => b)) [] 0 i hiy]
    simp [hx]
  · rw [hX, getD_map_fn y (fun _ => x) [] 0 i hiy]
  · rw [hY, getD_map_fn y (fun b => x.map (fun _ => b)) [] 0 i hiy,
      getD_map_fn x (fun _ => y.getD i 0) 0 0 j hjx]
  · rw [broadcast2_meshgrid f x y,
      getD_map_fn y (fun b => x.map (fun a => f a b)) [] 0 i hiy,
      getD_map_fn x (fun a => f a (y.getD i 0)) 0 0 j hjx]
    rfl

/-- C5, witness: the grid property applied at the all-zero rows of the
notebook's lengths, position (0, 0). -/
theorem meshgrid_and_broadcast_f_witness :
    (List.replicate 50 (0 : ℝ)).length = 50 ∧
    (List.replicate 40 (0 : ℝ)).length = 40 ∧
    (0 : ℕ) < 40 ∧ (0 : ℕ) < 50 ∧
    ((meshgrid (List.replicate 50 (0 : ℝ)) (List.replicate 40 (0 : ℝ))).1.length = 40 ∧
      (meshgrid (List.replicate 50 (0 : ℝ)) (List.replicate 40 (0 : ℝ))).2.length = 40 ∧
      ((meshgrid (List.replicate 50 (0 : ℝ)) (List.replicate 40 (0 : ℝ))).1.getD 0 []).length = 50 ∧
      ((meshgrid (List.replicate 50 (0 : ℝ)) (List.replicate 40 (0 : ℝ))).2.getD 0 []).length = 50 ∧
      ((meshgrid (List.replicate 50 (0 : ℝ)) (List.replicate 40 (0 : ℝ))).1.getD 0 []).getD 0 0
        = (List.replicate 50 (0 : ℝ)).getD 0 0 ∧
      ((meshgrid (List.replicate 50 (0 : ℝ)) (List.replicate 40 (0 : ℝ))).2.getD 0 []).getD 0 0
        = (List.replicate 40 (0 : ℝ)).getD 0 0 ∧
      ((broadcast2 f (meshgrid (List.replicate 50 (0 : ℝ)) (List.replicate 40 (0 : ℝ))).1
          (meshgrid (List.replicate 50 (0 : ℝ)) (List.replicate 40 (0 : ℝ))).2).getD 0 []).getD 0 0
        = Real.sin ((List.replicate 50 (0 : ℝ)).getD 0 0) ^ 10 +
          Real.cos (10 + (List.replicate 40 (0 : ℝ)).getD 0 0 *
              (List.replicate 50 (0 : ℝ)).getD 0 0) *
            Real.cos ((List.replicate 50 (0 : ℝ)).getD 0 0)) :=
  ⟨by simp, by simp, by norm_num, by norm_num,
    meshgrid_and_broadcast_f (List.replicate 50 (0 : ℝ)) (List.replicate 40 (0 : ℝ))
      (by simp) (by simp) 0 0 (by norm_num) (by norm_num)⟩

/- ======================================================================
   grayscale_cmap and view_colormap of 04.07-Customizing-Colorbars
   ====================================================================== -/

/-- One RGBA colormap entry, a row of cmap(np.arange(cmap.N)). -/
structure RGBA where
  r : ℝ
  g : ℝ
  b : ℝ
  a : ℝ

/-- grayscale_cmap of 04.07 (lines 148-159), acting on the entry table of a
colormap with N entries: luminance = np.sqrt(np.dot(colors[:, :3] ** 2,
[0.299, 0.587, 0.114])); colors[:, :3] = luminance[:, np.newaxis]; the
rebuilt colormap keeps the same N entries. -/
noncomputable def grayscale_cmap (colors : List RGBA) : List RGBA :=
  (colors.zip (colors.map (fun c =>
    Real.sqrt (c.r ^ 2 * 0.299 + c.g ^ 2 * 0.587 + c.b ^ 2 * 0.114)))).map
    (fun p => ⟨p.2, p.2, p.2, p.1.a⟩)

/-- Modelled from the spec: what the spec says the function amounts to, a
per-entry composition of documented library calls with the literal weights
0.299, 0.587, 0.114: each entry is replaced by its perceived luminance in
all three color channels, alpha kept. -/
noncomputable def grayscaleEntry (c : RGBA) : RGBA :=
  ⟨Real.sqrt (0.299 * c.r ^ 2 + 0.587 * c.g ^ 2 + 0.114 * c.b ^ 2),
   Real.sqrt (0.299 * c.r ^ 2 + 0.587 * c.g ^ 2 + 0.114 * c.b ^ 2),
   Real.sqrt (0.299 * c.r ^ 2 + 0.587 * c.g ^ 2 + 0.114 * c.b ^ 2),
   c.a⟩

/-- Modelled from the spec: the whole colormap transform as an entrywise map
of the library composition. -/
noncomputable def grayscale_cmap_specModel (colors : List RGBA) : List RGBA :=
  colors.map grayscaleEntry

/-- The data view_colormap of 04.07 (lines 162-170) draws: the colormap's own
entries and the grayscale entries; the remaining statements of the function
are imshow calls on those two arrays. -/
noncomputable def view_colormap_data (cmap : List RGBA) :
    List RGBA × List RGBA :=
  (cmap, grayscale_cmap cmap)

theorem grayscale_cmap_eq_map (colors : List RGBA) :
    grayscale_cmap colors = colors.map grayscaleEntry := by
  induction colors with
  | nil => rfl
  | cons c cs ih =>
    simp only [grayscale_cmap, List.map_cons, List.zip_cons_cons] at ih ⊢
    rw [ih]
    have h : Real.sqrt (c.r ^ 2 * 0.299 + c.g ^ 2 * 0.587 + c.b ^ 2 * 0.114)
        = Real.sqrt (0.299 * c.r ^ 2 + 0.587 * c.g ^ 2 + 0.114 * c.b ^ 2) :=
      congrArg Real.sqrt (by ring)
    simp only [grayscaleEntry, h]

theorem grayscaleEntry_idem (c : RGBA) :
    grayscaleEntry (grayscaleEntry c) = grayscaleEntry c := by
  have hL0 : 0 ≤ Real.sqrt (0.299 * c.r ^ 2 + 0.587 * c.g ^ 2 + 0.114 * c.b ^ 2) :=
    Real.sqrt_nonneg _
  set L := Real.sqrt (0.299 * c.r ^ 2 + 0.587 * c.g ^ 2 + 0.114 * c.b ^ 2) with hL
  show (⟨Real.sqrt (0.299 * L ^ 2 + 0.587 * L ^ 2 + 0.114 * L ^ 2),
         Real.sqrt (0.299 * L ^ 2 + 0.587 * L ^ 2 + 0.114 * L ^ 2),
         Real.sqrt (0.299 * L ^ 2 + 0.587 * L ^ 2 + 0.114 * L ^ 2), c.a⟩ : RGBA)
      = ⟨L, L, L, c.a⟩
  have h1 : 0.299 * L ^ 2 + 0.587 * L ^ 2 + 0.114 * L ^ 2 = L ^ 2 := by ring
  rw [h1, Real.sqrt_sq hL0]

theorem grayscaleEntry_zero :
    grayscaleEntry ⟨0, 0, 0, 0⟩ = (⟨0, 0, 0, 0⟩ : RGBA) := by
  show (⟨Real.sqrt (0.299 * (0 : ℝ) ^ 2 + 0.587 * (0 : ℝ) ^ 2 + 0.114 * (0 : ℝ) ^ 2),
         _, _, (0 : ℝ)⟩ : RGBA) = ⟨0, 0, 0, 0⟩
  norm_num

/-- model = lambda x: x * np.sin(x), the Gaussian-process example curve
defined by the Visualizing Errors notebook (part_001, line 124). -/
noncomputable def model (x : ℝ) : ℝ := x * Real.sin x

/-- Modelled from the spec: the same lambda read as the spec describes it, a
composition of the external library's documented sin call with no
parameters beyond the input itself. -/
noncomputable def model_specModel (x : ℝ) : ℝ := x * Real.sin x

/-- C2: none of the functions the notebooks define carries algorithmic
content of its own: f, grayscale_cmap, view_colormap and the model lambda of
the errors notebook are extensionally equal to compositions of the external
library's documented calls configured only with literal parameters. -/
theorem notebook_functions_compose_library_calls :
    f = f_specModel ∧
    model = model_specModel ∧
    grayscale_cmap = grayscale_cmap_specModel ∧
    view_colormap_data = fun cmap => (cmap, grayscale_cmap_specModel cmap) := by
  refine ⟨rfl, rfl, ?_, ?_⟩
  · funext colors
    rw [grayscale_cmap_eq_map]
    rfl
  · funext cmap
    unfold view_colormap_data
    rw [grayscale_cmap_eq_map]
    rfl

/-- C8: grayscale_cmap keeps the number of entries; every output entry has
its three color channels equal to the luminance of the corresponding input
entry with alpha unchanged (the content of grayscaleEntry); and since the
weights 0.299 + 0.587 + 0.114 sum to 1 it is idempotent: applied to its own
output it returns the same colors. -/
theorem grayscale_cmap_luminance_idempotent (colors : List RGBA) :
    (grayscale_cmap colors).length = colors.length ∧
    (∀ i : ℕ, (grayscale_cmap colors).getD i ⟨0, 0, 0, 0⟩
        = grayscaleEntry (colors.getD i ⟨0, 0, 0, 0⟩)) ∧
    grayscale_cmap (grayscale_cmap colors) = grayscale_cmap colors := by
  refine ⟨by rw [grayscale_cmap_eq_map]; simp, ?_, ?_⟩
  · intro i
    rw [grayscale_cmap_eq_map]
    by_cases hi : i < colors.length
    · rw [List.getD_eq_getElem _ _ (by simpa using hi),
        List.getD_eq_getElem _ _ hi, List.getElem_map]
    · have hnone : colors[i]? = none := List.getElem?_eq_none (le_of_not_lt hi)
      have hnone2 : (colors.map grayscaleEntry)[i]? = none :=
        List.getElem?_eq_none (by simpa using le_of_not_lt hi)
      rw [List.getD_eq_getElem?_getD, List.getD_eq_getElem?_getD, hnone, hnone2]
      exact grayscaleEntry_zero.symm
  · rw [grayscale_cmap_eq_map, grayscale_cmap_eq_map, List.map_map]
    exact List.map_congr_left (fun c _ => grayscaleEntry_idem c)
